import Mathlib

/-!
Verification of the LexiDiff text-alignment diff engine
(`computeDiff` and `computeAlignedDiff` in `src/App.tsx`).

Strings are modelled as `List Char`.  The JavaScript tokenization
`text.split(/(\s+)/)` (split on whitespace runs, keeping the captured
separators) is modelled by `splitWS`.  The LCS dynamic-programming table is
`dp`, the backtracking while-loop is modelled with explicit fuel (so that a
hypothetical non-progressing iteration shows up as `none` rather than being
hidden), and the two imperative merge passes are modelled by the recursive
functions `mergeChanges` and `mergeRows`.
-/

/-- The character class matched by JavaScript's `\s` in a regular expression:
tab, line feed, vertical tab, form feed, carriage return, space, and the
Unicode whitespace code points (NBSP, OGHAM SPACE MARK, U+2000–U+200A,
LINE/PARAGRAPH SEPARATOR, NARROW NBSP, MMSP, IDEOGRAPHIC SPACE, BOM). -/
def jsWhitespace (c : Char) : Bool :=
  c.toNat = 0x9 || c.toNat = 0xa || c.toNat = 0xb || c.toNat = 0xc ||
  c.toNat = 0xd || c.toNat = 0x20 || c.toNat = 0xa0 || c.toNat = 0x1680 ||
  (0x2000 ≤ c.toNat && c.toNat ≤ 0x200a) || c.toNat = 0x2028 ||
  c.toNat = 0x2029 || c.toNat = 0x202f || c.toNat = 0x205f ||
  c.toNat = 0x3000 || c.toNat = 0xfeff

/-- Model of JavaScript `text.split(/(\s+)/)`: the string is cut at maximal
whitespace runs, and because the regex has a capturing group the whitespace
runs themselves appear in the output between the non-whitespace chunks.  The
first and last chunks may be the empty string (when the text starts or ends
with whitespace, or is empty); interior chunks are nonempty. -/
def splitWS : List Char → List (List Char)
  | [] => [[]]
  | c :: rest =>
    let r := splitWS rest
    if jsWhitespace c then
      match r with
      | [] :: w :: ts => [] :: (c :: w) :: ts
      | _ => [] :: [c] :: r
    else
      match r with
      | t :: ts => (c :: t) :: ts
      | [] => [[c]]

/-- The classification of a change record: `'added' | 'removed' | 'unchanged'`. -/
inductive DiffType where
  | added : DiffType
  | removed : DiffType
  | unchanged : DiffType
deriving DecidableEq, Repr

/-- `DiffChange` from `types.ts`: `{ type: 'added'|'removed'|'unchanged', value: string }`. -/
structure DiffChange where
  type : DiffType
  value : List Char
deriving DecidableEq, Repr

/-- One row of the LCS table, as a function of the column index, given the
previous row, the token `a[i-1]` of the current row, and the token list `b`:
`dp[i][0] = 0` and
`dp[i][j] = dp[i-1][j-1] + 1` if `a[i-1] == b[j-1]`, else
`max(dp[i-1][j], dp[i][j-1])`. -/
def dpRow (prev : Nat → Nat) (ai : List Char) (b : List (List Char)) : Nat → Nat
  | 0 => 0
  | j + 1 =>
    if ai = b.getD j [] then prev j + 1
    else max (prev (j + 1)) (dpRow prev ai b j)

/-- The LCS length table `dp` filled by both `computeDiff` and
`computeAlignedDiff`: `dp a b i j` is the value `dp[i][j]` of the JS code. -/
def dp (a b : List (List Char)) : Nat → Nat → Nat
  | 0 => fun _ => 0
  | i + 1 => dpRow (dp a b i) (a.getD i []) b

/-- The backtracking while-loop of `computeDiff`, with explicit fuel.  The
accumulator plays the role of `result`, to which records are prepended by
`unshift`.  A loop iteration in which no branch fires (which would loop
forever in JS) consumes fuel without progress, so a stuck loop is `none`. -/
def backtrack (a b : List (List Char)) :
    Nat → Nat → Nat → List DiffChange → Option (List DiffChange)
  | 0, i, j, acc => if i = 0 ∧ j = 0 then some acc else none
  | fuel + 1, i, j, acc =>
    if i = 0 ∧ j = 0 then some acc
    else if 0 < i ∧ 0 < j ∧ a.getD (i - 1) [] = b.getD (j - 1) [] then
      backtrack a b fuel (i - 1) (j - 1)
        (⟨.unchanged, a.getD (i - 1) []⟩ :: acc)
    else if 0 < j ∧ (i = 0 ∨ dp a b (i - 1) j ≤ dp a b i (j - 1)) then
      backtrack a b fuel i (j - 1) (⟨.added, b.getD (j - 1) []⟩ :: acc)
    else if 0 < i ∧ (j = 0 ∨ dp a b i (j - 1) < dp a b (i - 1) j) then
      backtrack a b fuel (i - 1) j (⟨.removed, a.getD (i - 1) []⟩ :: acc)
    else
      backtrack a b fuel i j acc

/-- The post-processing merge loop of `computeDiff`: consecutive records of
the same type are merged, concatenating their values. -/
def mergeChanges : List DiffChange → List DiffChange
  | [] => []
  | [x] => [x]
  | x :: y :: rest =>
    if x.type = y.type then mergeChanges (⟨x.type, x.value ++ y.value⟩ :: rest)
    else x :: mergeChanges (y :: rest)
termination_by l => l.length

/-- `computeDiff` before the final merge pass, as an `Option` reflecting the
fuelled backtracking loop (always `some`, see `backtrack_isSome`). -/
def computeDiffOpt (text1 text2 : List Char) : Option (List DiffChange) :=
  let words1 := splitWS text1
  let words2 := splitWS text2
  (backtrack words1 words2 (words1.length + words2.length)
      words1.length words2.length []).map mergeChanges

/-- `computeDiff` from `src/App.tsx`: word-level LCS diff of the two texts. -/
def computeDiff (text1 text2 : List Char) : List DiffChange :=
  (computeDiffOpt text1 text2).getD []

/-- `AlignedRow` from `types.ts`:
`{ left: DiffChange | null, right: DiffChange | null }`. -/
structure AlignedRow where
  left : Option DiffChange
  right : Option DiffChange
deriving DecidableEq, Repr

/-- The backtracking while-loop of `computeAlignedDiff`, with explicit fuel
and `rows` as the accumulator.  The removal case is the final `else` of the
JS loop, which reads `words1[i-1]` and decrements `i`; it is only sound when
`0 < i`, which the loop guarantees (an iteration with `i = 0` there would
misbehave in JS and is modelled as a non-progressing step). -/
def backtrackRows (a b : List (List Char)) :
    Nat → Nat → Nat → List AlignedRow → Option (List AlignedRow)
  | 0, i, j, acc => if i = 0 ∧ j = 0 then some acc else none
  | fuel + 1, i, j, acc =>
    if i = 0 ∧ j = 0 then some acc
    else if 0 < i ∧ 0 < j ∧ a.getD (i - 1) [] = b.getD (j - 1) [] then
      backtrackRows a b fuel (i - 1) (j - 1)
        (⟨some ⟨.unchanged, a.getD (i - 1) []⟩,
          some ⟨.unchanged, b.getD (j - 1) []⟩⟩ :: acc)
    else if 0 < j ∧ (i = 0 ∨ dp a b (i - 1) j ≤ dp a b i (j - 1)) then
      backtrackRows a b fuel i (j - 1)
        (⟨none, some ⟨.added, b.getD (j - 1) []⟩⟩ :: acc)
    else if 0 < i then
      backtrackRows a b fuel (i - 1) j
        (⟨some ⟨.removed, a.getD (i - 1) []⟩, none⟩ :: acc)
    else
      backtrackRows a b fuel i j acc

/-- `row.left?.type === 'unchanged' && row.right?.type === 'unchanged'`. -/
def isMatchRow (r : AlignedRow) : Bool :=
  match r.left, r.right with
  | some l, some rt => l.type = .unchanged ∧ rt.type = .unchanged
  | _, _ => false

/-- `!row.left && row.right?.type === 'added'`. -/
def isAdditionRow (r : AlignedRow) : Bool :=
  match r.left, r.right with
  | none, some rt => rt.type = .added
  | _, _ => false

/-- `row.left?.type === 'removed' && !row.right`. -/
def isRemovalRow (r : AlignedRow) : Bool :=
  match r.left, r.right with
  | some l, none => l.type = .removed
  | _, _ => false

/-- One side of the in-place merge `if (row.x) last.x!.value += row.x.value`:
when the later side is absent the earlier side is kept; when both are present
their values concatenate (the type of the earlier record is kept).  The case
of an absent earlier side with a present later side would dereference `null`
in JS; it is unreachable under the merge guard. -/
def appendVal : Option DiffChange → Option DiffChange → Option DiffChange
  | xl, none => xl
  | some xv, some yv => some ⟨xv.type, xv.value ++ yv.value⟩
  | none, some _ => none

/-- Merging a later row `y` into the preceding row `x` of the same category. -/
def combineRow (x y : AlignedRow) : AlignedRow :=
  ⟨appendVal x.left y.left, appendVal x.right y.right⟩

/-- The merge guard of `computeAlignedDiff`:
`(isMatch && lastIsMatch) || (isAddition && lastIsAddition) || (isRemoval && lastIsRemoval)`. -/
def sameRowCat (x y : AlignedRow) : Bool :=
  (isMatchRow x && isMatchRow y) || (isAdditionRow x && isAdditionRow y) ||
  (isRemovalRow x && isRemovalRow y)

/-- The merge loop of `computeAlignedDiff`: consecutive rows of the same
category (match / addition / removal) are merged with `combineRow`. -/
def mergeRows : List AlignedRow → List AlignedRow
  | [] => []
  | [x] => [x]
  | x :: y :: rest =>
    if sameRowCat x y then mergeRows (combineRow x y :: rest)
    else x :: mergeRows (y :: rest)
termination_by l => l.length

/-- `computeAlignedDiff` before the final merge pass, as an `Option`
reflecting the fuelled backtracking loop (always `some`, see
`backtrack_isSome`).  Unlike `computeDiff`, the tokenizer output is filtered
by `w.length > 0`. -/
def computeAlignedDiffOpt (text1 text2 : List Char) : Option (List AlignedRow) :=
  let words1 := (splitWS text1).filter (fun w => w.length != 0)
  let words2 := (splitWS text2).filter (fun w => w.length != 0)
  (backtrackRows words1 words2 (words1.length + words2.length)
      words1.length words2.length []).map mergeRows

/-- `computeAlignedDiff` from `src/App.tsx`: two-column aligned LCS diff. -/
def computeAlignedDiff (text1 text2 : List Char) : List AlignedRow :=
  (computeAlignedDiffOpt text1 text2).getD []

/-! ### Observations on the outputs -/

/-- A token is uniform when it is entirely whitespace or entirely
non-whitespace. -/
def uniformClass (t : List Char) : Bool :=
  t.all jsWhitespace || t.all (fun c => !jsWhitespace c)

/-- Tokens alternate between non-whitespace chunks and whitespace runs;
`ws?` is the class expected of the first token. -/
def altChunks : Bool → List (List Char) → Bool
  | _, [] => true
  | ws?, t :: ts => t.all (fun c => jsWhitespace c == ws?) && altChunks (!ws?) ts

/-- Concatenation of the values of the records whose type satisfies `p`. -/
def textOf (p : DiffType → Bool) (l : List DiffChange) : List Char :=
  ((l.filter fun c => p c.type).map fun c => c.value).flatten

/-- Types whose records carry text of the first document (`unchanged` and
`removed`). -/
def isSourceType : DiffType → Bool
  | .added => false
  | _ => true

/-- Types whose records carry text of the second document (`unchanged` and
`added`). -/
def isTargetType : DiffType → Bool
  | .removed => false
  | _ => true

/-- The text carried by one side of a row (`[]` for an absent side). -/
def optText : Option DiffChange → List Char
  | none => []
  | some c => c.value

/-- Concatenation of the present `left` values of a row list. -/
def leftText (l : List AlignedRow) : List Char :=
  (l.map fun r => optText r.left).flatten

/-- Concatenation of the present `right` values of a row list. -/
def rightText (l : List AlignedRow) : List Char :=
  (l.map fun r => optText r.right).flatten

/-- No two adjacent records share a type. -/
def noAdjSameType : List DiffChange → Bool
  | x :: y :: rest => x.type != y.type && noAdjSameType (y :: rest)
  | _ => true

/-- No two adjacent rows share a category. -/
def noAdjSameCat : List AlignedRow → Bool
  | x :: y :: rest => !sameRowCat x y && noAdjSameCat (y :: rest)
  | _ => true

/-- A row is one of the three legal shapes: match, insertion, deletion. -/
def rowShape (r : AlignedRow) : Bool :=
  isMatchRow r || isAdditionRow r || isRemovalRow r

/-- Every present side of a row carries a nonempty value. -/
def rowValuesNonempty (r : AlignedRow) : Bool :=
  r.left.all (fun c => c.value.length != 0) &&
  r.right.all (fun c => c.value.length != 0)

/-! ### Tokenizer lemmas -/

theorem splitWS_ne_nil (s : List Char) : splitWS s ≠ [] := by
  cases s with
  | nil => simp [splitWS]
  | cons c rest =>
    simp only [splitWS]
    by_cases hc : jsWhitespace c
    · simp only [if_pos hc]
      split <;> simp
    · simp only [if_neg hc]
      split <;> simp

theorem splitWS_flatten (s : List Char) : (splitWS s).flatten = s := by
  induction s with
  | nil => simp [splitWS]
  | cons c rest ih =>
    simp only [splitWS]
    by_cases hc : jsWhitespace c
    · simp only [if_pos hc]
      split
      · next w ts heq =>
        rw [heq] at ih
        simp only [List.flatten_cons, List.nil_append] at ih ⊢
        simp [ih]
      · next heq =>
        simp [ih]
    · simp only [if_neg hc]
      split
      · next t ts heq =>
        rw [heq] at ih
        simp only [List.flatten_cons] at ih ⊢
        simp [ih]
      · next heq => exact absurd heq (splitWS_ne_nil rest)

theorem splitWS_alt (s : List Char) : altChunks false (splitWS s) = true := by
  induction s with
  | nil => simp [splitWS, altChunks]
  | cons c rest ih =>
    simp only [splitWS]
    by_cases hc : jsWhitespace c
    · simp only [if_pos hc]
      split
      · next w ts heq =>
        rw [heq] at ih
        simp [altChunks] at ih ⊢
        exact ⟨⟨hc, ih.1⟩, ih.2⟩
      · next heq =>
        simp [altChunks, hc, ih]
    · simp only [if_neg hc]
      split
      · next t ts heq =>
        rw [heq] at ih
        simp [altChunks, hc] at ih ⊢
        exact ⟨ih.1, ih.2⟩
      · next heq => exact absurd heq (splitWS_ne_nil rest)

theorem altChunks_uniform (l : List (List Char)) :
    ∀ ws?, altChunks ws? l = true → l.all uniformClass = true := by
  induction l with
  | nil => intro ws? _; rfl
  | cons t ts ih =>
    intro ws? h
    simp only [altChunks, Bool.and_eq_true] at h
    simp only [List.all_cons, Bool.and_eq_true]
    refine ⟨?_, ih (!ws?) h.2⟩
    cases ws? with
    | true =>
      simp only [uniformClass, Bool.or_eq_true]
      left
      simpa using h.1
    | false =>
      simp only [uniformClass, Bool.or_eq_true]
      right
      simpa using h.1

theorem splitWS_uniform (s : List Char) : (splitWS s).all uniformClass = true :=
  altChunks_uniform _ false (splitWS_alt s)

theorem flatten_filter_ne_empty (l : List (List Char)) :
    (l.filter fun w => w.length != 0).flatten = l.flatten := by
  induction l with
  | nil => rfl
  | cons w t ih =>
    by_cases hw : w.length = 0
    · have hwnil : w = [] := List.eq_nil_of_length_eq_zero hw
      simp [hwnil, List.filter_cons, ih]
    · simp [List.filter_cons, hw, ih]

theorem splitWS_filter_flatten (s : List Char) :
    ((splitWS s).filter fun w => w.length != 0).flatten = s := by
  rw [flatten_filter_ne_empty, splitWS_flatten]

/-! ### Backtracking lemmas -/

theorem backtrack_branches (a b : List (List Char)) (i j : Nat)
    (h : ¬(i = 0 ∧ j = 0)) :
    (0 < i ∧ 0 < j ∧ a.getD (i - 1) [] = b.getD (j - 1) []) ∨
    (¬(0 < i ∧ 0 < j ∧ a.getD (i - 1) [] = b.getD (j - 1) []) ∧
      (0 < j ∧ (i = 0 ∨ dp a b (i - 1) j ≤ dp a b i (j - 1)))) ∨
    (¬(0 < i ∧ 0 < j ∧ a.getD (i - 1) [] = b.getD (j - 1) []) ∧
      ¬(0 < j ∧ (i = 0 ∨ dp a b (i - 1) j ≤ dp a b i (j - 1))) ∧
      (0 < i ∧ (j = 0 ∨ dp a b i (j - 1) < dp a b (i - 1) j))) := by
  by_cases h2 : 0 < i ∧ 0 < j ∧ a.getD (i - 1) [] = b.getD (j - 1) []
  · exact Or.inl h2
  by_cases h3 : 0 < j ∧ (i = 0 ∨ dp a b (i - 1) j ≤ dp a b i (j - 1))
  · exact Or.inr (Or.inl ⟨h2, h3⟩)
  refine Or.inr (Or.inr ⟨h2, h3, ?_⟩)
  omega

theorem backtrack_eq_keep (a b : List (List Char)) (fuel i j : Nat)
    (acc : List DiffChange)
    (h2 : 0 < i ∧ 0 < j ∧ a.getD (i - 1) [] = b.getD (j - 1) []) :
    backtrack a b (fuel + 1) i j acc =
      backtrack a b fuel (i - 1) (j - 1)
        (⟨.unchanged, a.getD (i - 1) []⟩ :: acc) := by
  have h1 : ¬(i = 0 ∧ j = 0) := by omega
  simp only [backtrack]
  rw [if_neg h1, if_pos h2]

theorem backtrack_eq_add (a b : List (List Char)) (fuel i j : Nat)
    (acc : List DiffChange)
    (h2 : ¬(0 < i ∧ 0 < j ∧ a.getD (i - 1) [] = b.getD (j - 1) []))
    (h3 : 0 < j ∧ (i = 0 ∨ dp a b (i - 1) j ≤ dp a b i (j - 1))) :
    backtrack a b (fuel + 1) i j acc =
      backtrack a b fuel i (j - 1) (⟨.added, b.getD (j - 1) []⟩ :: acc) := by
  have h1 : ¬(i = 0 ∧ j = 0) := by omega
  simp only [backtrack]
  rw [if_neg h1, if_neg h2, if_pos h3]

theorem backtrack_eq_del (a b : List (List Char)) (fuel i j : Nat)
    (acc : List DiffChange)
    (h2 : ¬(0 < i ∧ 0 < j ∧ a.getD (i - 1) [] = b.getD (j - 1) []))
    (h3 : ¬(0 < j ∧ (i = 0 ∨ dp a b (i - 1) j ≤ dp a b i (j - 1))))
    (h4 : 0 < i ∧ (j = 0 ∨ dp a b i (j - 1) < dp a b (i - 1) j)) :
    backtrack a b (fuel + 1) i j acc =
      backtrack a b fuel (i - 1) j (⟨.removed, a.getD (i - 1) []⟩ :: acc) := by
  have h1 : ¬(i = 0 ∧ j = 0) := by omega
  simp only [backtrack]
  rw [if_neg h1, if_neg h2, if_neg h3, if_pos h4]

theorem backtrackRows_eq_keep (a b : List (List Char)) (fuel i j : Nat)
    (acc : List AlignedRow)
    (h2 : 0 < i ∧ 0 < j ∧ a.getD (i - 1) [] = b.getD (j - 1) []) :
    backtrackRows a b (fuel + 1) i j acc =
      backtrackRows a b fuel (i - 1) (j - 1)
        (⟨some ⟨.unchanged, a.getD (i - 1) []⟩,
          some ⟨.unchanged, b.getD (j - 1) []⟩⟩ :: acc) := by
  have h1 : ¬(i = 0 ∧ j = 0) := by omega
  simp only [backtrackRows]
  rw [if_neg h1, if_pos h2]

theorem backtrackRows_eq_add (a b : List (List Char)) (fuel i j : Nat)
    (acc : List AlignedRow)
    (h2 : ¬(0 < i ∧ 0 < j ∧ a.getD (i - 1) [] = b.getD (j - 1) []))
    (h3 : 0 < j ∧ (i = 0 ∨ dp a b (i - 1) j ≤ dp a b i (j - 1))) :
    backtrackRows a b (fuel + 1) i j acc =
      backtrackRows a b fuel i (j - 1)
        (⟨none, some ⟨.added, b.getD (j - 1) []⟩⟩ :: acc) := by
  have h1 : ¬(i = 0 ∧ j = 0) := by omega
  simp only [backtrackRows]
  rw [if_neg h1, if_neg h2, if_pos h3]

theorem backtrackRows_eq_del (a b : List (List Char)) (fuel i j : Nat)
    (acc : List AlignedRow)
    (h2 : ¬(0 < i ∧ 0 < j ∧ a.getD (i - 1) [] = b.getD (j - 1) []))
    (h3 : ¬(0 < j ∧ (i = 0 ∨ dp a b (i - 1) j ≤ dp a b i (j - 1))))
    (h4 : 0 < i) :
    backtrackRows a b (fuel + 1) i j acc =
      backtrackRows a b fuel (i - 1) j
        (⟨some ⟨.removed, a.getD (i - 1) []⟩, none⟩ :: acc) := by
  have h1 : ¬(i = 0 ∧ j = 0) := by omega
  simp only [backtrackRows]
  rw [if_neg h1, if_neg h2, if_neg h3, if_pos h4]

theorem backtrack_isSome (a b : List (List Char)) :
    ∀ fuel i j acc, i + j ≤ fuel →
      (backtrack a b fuel i j acc).isSome = true := by
  intro fuel
  induction fuel with
  | zero =>
    intro i j acc h
    have h1 : i = 0 ∧ j = 0 := by omega
    simp [backtrack, h1]
  | succ fuel ih =>
    intro i j acc h
    by_cases h1 : i = 0 ∧ j = 0
    · simp only [backtrack]
      rw [if_pos h1]
      rfl
    · rcases backtrack_branches a b i j h1 with h2 | ⟨h2, h3⟩ | ⟨h2, h3, h4⟩
      · rw [backtrack_eq_keep a b fuel i j acc h2]
        exact ih _ _ _ (by omega)
      · rw [backtrack_eq_add a b fuel i j acc h2 h3]
        exact ih _ _ _ (by omega)
      · rw [backtrack_eq_del a b fuel i j acc h2 h3 h4]
        exact ih _ _ _ (by omega)

theorem backtrackRows_isSome (a b : List (List Char)) :
    ∀ fuel i j acc, i + j ≤ fuel →
      (backtrackRows a b fuel i j acc).isSome = true := by
  intro fuel
  induction fuel with
  | zero =>
    intro i j acc h
    have h1 : i = 0 ∧ j = 0 := by omega
    simp [backtrackRows, h1]
  | succ fuel ih =>
    intro i j acc h
    by_cases h1 : i = 0 ∧ j = 0
    · simp only [backtrackRows]
      rw [if_pos h1]
      rfl
    · rcases backtrack_branches a b i j h1 with h2 | ⟨h2, h3⟩ | ⟨h2, h3, h4⟩
      · rw [backtrackRows_eq_keep a b fuel i j acc h2]
        exact ih _ _ _ (by omega)
      · rw [backtrackRows_eq_add a b fuel i j acc h2 h3]
        exact ih _ _ _ (by omega)
      · rw [backtrackRows_eq_del a b fuel i j acc h2 h3 h4.1]
        exact ih _ _ _ (by omega)

theorem textOf_cons (p : DiffType → Bool) (c : DiffChange) (l : List DiffChange) :
    textOf p (c :: l) = (if p c.type then c.value else []) ++ textOf p l := by
  by_cases h : p c.type <;> simp [textOf, List.filter_cons, h]

theorem leftText_cons (r : AlignedRow) (l : List AlignedRow) :
    leftText (r :: l) = optText r.left ++ leftText l := by
  simp [leftText]

theorem rightText_cons (r : AlignedRow) (l : List AlignedRow) :
    rightText (r :: l) = optText r.right ++ rightText l := by
  simp [rightText]

theorem flatten_take_aux (l : List (List Char)) :
    ∀ k, k < l.length →
      (l.take (k + 1)).flatten = (l.take k).flatten ++ l.getD k [] := by
  induction l with
  | nil => intro k hk; simp at hk
  | cons w t ih =>
    intro k hk
    cases k with
    | zero => simp
    | succ k =>
      have hk2 : k < t.length := by simpa using hk
      simp only [List.take_succ_cons, List.flatten_cons, List.getD_cons_succ,
        ih k hk2, List.append_assoc]

theorem flatten_take_succ (l : List (List Char)) (i : Nat) (h0 : 0 < i)
    (h : i ≤ l.length) :
    (l.take i).flatten = (l.take (i - 1)).flatten ++ l.getD (i - 1) [] := by
  obtain ⟨k, rfl⟩ : ∃ k, i = k + 1 := ⟨i - 1, by omega⟩
  simpa using flatten_take_aux l k (by omega)

theorem backtrack_src (a b : List (List Char)) :
    ∀ fuel i j acc res, i ≤ a.length →
      backtrack a b fuel i j acc = some res →
      textOf isSourceType res = (a.take i).flatten ++ textOf isSourceType acc := by
  intro fuel
  induction fuel with
  | zero =>
    intro i j acc res hi hres
    simp only [backtrack] at hres
    split at hres
    · next h1 =>
      obtain ⟨rfl, -⟩ := h1
      simp only [Option.some.injEq] at hres
      simp [hres]
    · exact absurd hres (by simp)
  | succ fuel ih =>
    intro i j acc res hi hres
    by_cases h1 : i = 0 ∧ j = 0
    · simp only [backtrack] at hres
      rw [if_pos h1] at hres
      obtain ⟨rfl, -⟩ := h1
      simp only [Option.some.injEq] at hres
      simp [hres]
    · rcases backtrack_branches a b i j h1 with h2 | ⟨h2, h3⟩ | ⟨h2, h3, h4⟩
      · rw [backtrack_eq_keep a b fuel i j acc h2] at hres
        have step := ih (i - 1) (j - 1) _ res (by omega) hres
        rw [step, textOf_cons, flatten_take_succ a i h2.1 hi]
        simp [isSourceType]
      · rw [backtrack_eq_add a b fuel i j acc h2 h3] at hres
        have step := ih i (j - 1) _ res hi hres
        rw [step, textOf_cons]
        simp [isSourceType]
      · rw [backtrack_eq_del a b fuel i j acc h2 h3 h4] at hres
        have step := ih (i - 1) j _ res (by omega) hres
        rw [step, textOf_cons, flatten_take_succ a i h4.1 hi]
        simp [isSourceType]

theorem backtrack_tgt (a b : List (List Char)) :
    ∀ fuel i j acc res, j ≤ b.length →
      backtrack a b fuel i j acc = some res →
      textOf isTargetType res = (b.take j).flatten ++ textOf isTargetType acc := by
  intro fuel
  induction fuel with
  | zero =>
    intro i j acc res hj hres
    simp only [backtrack] at hres
    split at hres
    · next h1 =>
      obtain ⟨-, rfl⟩ := h1
      simp only [Option.some.injEq] at hres
      simp [hres]
    · exact absurd hres (by simp)
  | succ fuel ih =>
    intro i j acc res hj hres
    by_cases h1 : i = 0 ∧ j = 0
    · simp only [backtrack] at hres
      rw [if_pos h1] at hres
      obtain ⟨-, rfl⟩ := h1
      simp only [Option.some.injEq] at hres
      simp [hres]
    · rcases backtrack_branches a b i j h1 with h2 | ⟨h2, h3⟩ | ⟨h2, h3, h4⟩
      · rw [backtrack_eq_keep a b fuel i j acc h2] at hres
        have step := ih (i - 1) (j - 1) _ res (by omega) hres
        have hab := h2.2.2
        rw [step, textOf_cons, flatten_take_succ b j h2.2.1 hj, ← hab]
        simp [isTargetType]
      · rw [backtrack_eq_add a b fuel i j acc h2 h3] at hres
        have step := ih i (j - 1) _ res (by omega) hres
        rw [step, textOf_cons, flatten_take_succ b j h3.1 hj]
        simp [isTargetType]
      · rw [backtrack_eq_del a b fuel i j acc h2 h3 h4] at hres
        have step := ih (i - 1) j _ res hj hres
        rw [step, textOf_cons]
        simp [isTargetType]

theorem backtrackRows_left (a b : List (List Char)) :
    ∀ fuel i j acc res, i ≤ a.length →
      backtrackRows a b fuel i j acc = some res →
      leftText res = (a.take i).flatten ++ leftText acc := by
  intro fuel
  induction fuel with
  | zero =>
    intro i j acc res hi hres
    simp only [backtrackRows] at hres
    split at hres
    · next h1 =>
      obtain ⟨rfl, -⟩ := h1
      simp only [Option.some.injEq] at hres
      simp [hres]
    · exact absurd hres (by simp)
  | succ fuel ih =>
    intro i j acc res hi hres
    by_cases h1 : i = 0 ∧ j = 0
    · simp only [backtrackRows] at hres
      rw [if_pos h1] at hres
      obtain ⟨rfl, -⟩ := h1
      simp only [Option.some.injEq] at hres
      simp [hres]
    · rcases backtrack_branches a b i j h1 with h2 | ⟨h2, h3⟩ | ⟨h2, h3, h4⟩
      · rw [backtrackRows_eq_keep a b fuel i j acc h2] at hres
        have step := ih (i - 1) (j - 1) _ res (by omega) hres
        rw [step, leftText_cons, flatten_take_succ a i h2.1 hi]
        simp [optText]
      · rw [backtrackRows_eq_add a b fuel i j acc h2 h3] at hres
        have step := ih i (j - 1) _ res hi hres
        rw [step, leftText_cons]
        simp [optText]
      · rw [backtrackRows_eq_del a b fuel i j acc h2 h3 h4.1] at hres
        have step := ih (i - 1) j _ res (by omega) hres
        rw [step, leftText_cons, flatten_take_succ a i h4.1 hi]
        simp [optText]

theorem backtrackRows_right (a b : List (List Char)) :
    ∀ fuel i j acc res, j ≤ b.length →
      backtrackRows a b fuel i j acc = some res →
      rightText res = (b.take j).flatten ++ rightText acc := by
  intro fuel
  induction fuel with
  | zero =>
    intro i j acc res hj hres
    simp only [backtrackRows] at hres
    split at hres
    · next h1 =>
      obtain ⟨-, rfl⟩ := h1
      simp only [Option.some.injEq] at hres
      simp [hres]
    · exact absurd hres (by simp)
  | succ fuel ih =>
    intro i j acc res hj hres
    by_cases h1 : i = 0 ∧ j = 0
    · simp only [backtrackRows] at hres
      rw [if_pos h1] at hres
      obtain ⟨-, rfl⟩ := h1
      simp only [Option.some.injEq] at hres
      simp [hres]
    · rcases backtrack_branches a b i j h1 with h2 | ⟨h2, h3⟩ | ⟨h2, h3, h4⟩
      · rw [backtrackRows_eq_keep a b fuel i j acc h2] at hres
        have step := ih (i - 1) (j - 1) _ res (by omega) hres
        rw [step, rightText_cons, flatten_take_succ b j h2.2.1 hj]
        simp [optText]
      · rw [backtrackRows_eq_add a b fuel i j acc h2 h3] at hres
        have step := ih i (j - 1) _ res (by omega) hres
        rw [step, rightText_cons, flatten_take_succ b j h3.1 hj]
        simp [optText]
      · rw [backtrackRows_eq_del a b fuel i j acc h2 h3 h4.1] at hres
        have step := ih (i - 1) j _ res hj hres
        rw [step, rightText_cons]
        simp [optText]

/-! ### Flat merge pass -/

theorem textOf_mergeChanges (p : DiffType → Bool) (l : List DiffChange) :
    textOf p (mergeChanges l) = textOf p l := by
  induction l using mergeChanges.induct with
  | case1 => simp [mergeChanges]
  | case2 x => simp [mergeChanges]
  | case3 x y rest h ih =>
    simp only [mergeChanges, if_pos h]
    rw [ih]
    simp only [textOf_cons, ← h]
    by_cases hp : p x.type <;> simp [hp]
  | case4 x y rest h ih =>
    simp only [mergeChanges, if_neg h]
    simp only [textOf_cons, ih]

theorem mergeChanges_head (l : List DiffChange) :
    (mergeChanges l).head?.map (fun c => c.type) =
      l.head?.map (fun c => c.type) := by
  induction l using mergeChanges.induct with
  | case1 => simp [mergeChanges]
  | case2 x => simp [mergeChanges]
  | case3 x y rest h ih =>
    simp only [mergeChanges, if_pos h]
    rw [ih]
    rfl
  | case4 x y rest h ih =>
    simp only [mergeChanges, if_neg h]
    rfl

theorem noAdj_mergeChanges (l : List DiffChange) :
    noAdjSameType (mergeChanges l) = true := by
  induction l using mergeChanges.induct with
  | case1 => simp [mergeChanges, noAdjSameType]
  | case2 x => simp [mergeChanges, noAdjSameType]
  | case3 x y rest h ih =>
    simp only [mergeChanges, if_pos h]
    exact ih
  | case4 x y rest h ih =>
    simp only [mergeChanges, if_neg h]
    have hhead := mergeChanges_head (y :: rest)
    cases hM : mergeChanges (y :: rest) with
    | nil => rfl
    | cons z M =>
      rw [hM] at hhead ih
      simp only [List.head?_cons, Option.map_some] at hhead
      have hz : z.type = y.type := by simpa using hhead
      simp only [noAdjSameType, Bool.and_eq_true, bne_iff_ne, ne_eq]
      refine ⟨?_, ih⟩
      rw [hz]
      exact h

theorem mergeChanges_of_noAdj (l : List DiffChange)
    (h : noAdjSameType l = true) : mergeChanges l = l := by
  induction l using mergeChanges.induct with
  | case1 => simp [mergeChanges]
  | case2 x => simp [mergeChanges]
  | case3 x y rest heq ih =>
    exfalso
    simp only [noAdjSameType, Bool.and_eq_true, bne_iff_ne] at h
    exact h.1 heq
  | case4 x y rest hne ih =>
    simp only [noAdjSameType, Bool.and_eq_true] at h
    simp only [mergeChanges, if_neg hne]
    rw [ih h.2]

theorem mergeChanges_idem (l : List DiffChange) :
    mergeChanges (mergeChanges l) = mergeChanges l :=
  mergeChanges_of_noAdj _ (noAdj_mergeChanges l)

/-! ### Row merge pass -/

theorem combineRow_left_text (x y : AlignedRow) (h : sameRowCat x y = true) :
    optText (combineRow x y).left = optText x.left ++ optText y.left := by
  rcases x with ⟨_ | xl, _ | xr⟩ <;> rcases y with ⟨_ | yl, _ | yr⟩ <;>
    simp_all [sameRowCat, isMatchRow, isAdditionRow, isRemovalRow,
      combineRow, appendVal, optText]

theorem combineRow_right_text (x y : AlignedRow) (h : sameRowCat x y = true) :
    optText (combineRow x y).right = optText x.right ++ optText y.right := by
  rcases x with ⟨_ | xl, _ | xr⟩ <;> rcases y with ⟨_ | yl, _ | yr⟩ <;>
    simp_all [sameRowCat, isMatchRow, isAdditionRow, isRemovalRow,
      combineRow, appendVal, optText]

theorem combineRow_cats (x y : AlignedRow) (h : sameRowCat x y = true) :
    isMatchRow (combineRow x y) = isMatchRow x ∧
    isAdditionRow (combineRow x y) = isAdditionRow x ∧
    isRemovalRow (combineRow x y) = isRemovalRow x := by
  rcases x with ⟨_ | xl, _ | xr⟩ <;> rcases y with ⟨_ | yl, _ | yr⟩ <;>
    simp_all [sameRowCat, isMatchRow, isAdditionRow, isRemovalRow,
      combineRow, appendVal]

theorem leftText_mergeRows (l : List AlignedRow) :
    leftText (mergeRows l) = leftText l := by
  induction l using mergeRows.induct with
  | case1 => simp [mergeRows]
  | case2 x => simp [mergeRows]
  | case3 x y rest h ih =>
    simp only [mergeRows, if_pos h]
    rw [ih, leftText_cons, combineRow_left_text x y h, leftText_cons,
      leftText_cons, List.append_assoc]
  | case4 x y rest h ih =>
    simp only [mergeRows, if_neg h]
    simp only [leftText_cons, ih]

theorem rightText_mergeRows (l : List AlignedRow) :
    rightText (mergeRows l) = rightText l := by
  induction l using mergeRows.induct with
  | case1 => simp [mergeRows]
  | case2 x => simp [mergeRows]
  | case3 x y rest h ih =>
    simp only [mergeRows, if_pos h]
    rw [ih, rightText_cons, combineRow_right_text x y h, rightText_cons,
      rightText_cons, List.append_assoc]
  | case4 x y rest h ih =>
    simp only [mergeRows, if_neg h]
    simp only [rightText_cons, ih]

theorem mergeRows_head (l : List AlignedRow) :
    (mergeRows l).head?.map (fun r => (isMatchRow r, isAdditionRow r, isRemovalRow r)) =
      l.head?.map (fun r => (isMatchRow r, isAdditionRow r, isRemovalRow r)) := by
  induction l using mergeRows.induct with
  | case1 => simp [mergeRows]
  | case2 x => simp [mergeRows]
  | case3 x y rest h ih =>
    simp only [mergeRows, if_pos h]
    rw [ih]
    obtain ⟨h1, h2, h3⟩ := combineRow_cats x y h
    simp [h1, h2, h3]
  | case4 x y rest h ih =>
    simp only [mergeRows, if_neg h]
    rfl

theorem noAdj_mergeRows (l : List AlignedRow) :
    noAdjSameCat (mergeRows l) = true := by
  induction l using mergeRows.induct with
  | case1 => simp [mergeRows, noAdjSameCat]
  | case2 x => simp [mergeRows, noAdjSameCat]
  | case3 x y rest h ih =>
    simp only [mergeRows, if_pos h]
    exact ih
  | case4 x y rest h ih =>
    simp only [mergeRows, if_neg h]
    have hhead := mergeRows_head (y :: rest)
    cases hM : mergeRows (y :: rest) with
    | nil => rfl
    | cons z M =>
      rw [hM] at hhead ih
      have hz : (isMatchRow z, isAdditionRow z, isRemovalRow z) =
          (isMatchRow y, isAdditionRow y, isRemovalRow y) := by
        simpa using hhead
      simp only [Prod.mk.injEq] at hz
      have hcat : sameRowCat x z = sameRowCat x y := by
        simp [sameRowCat, hz.1, hz.2.1, hz.2.2]
      simp only [noAdjSameCat, Bool.and_eq_true]
      refine ⟨?_, ih⟩
      simp [hcat, h]

theorem mergeRows_of_noAdj (l : List AlignedRow)
    (h : noAdjSameCat l = true) : mergeRows l = l := by
  induction l using mergeRows.induct with
  | case1 => simp [mergeRows]
  | case2 x => simp [mergeRows]
  | case3 x y rest heq ih =>
    exfalso
    simp only [noAdjSameCat, Bool.and_eq_true, Bool.not_eq_true'] at h
    rw [heq] at h
    exact absurd h.1 (by simp)
  | case4 x y rest hne ih =>
    simp only [noAdjSameCat, Bool.and_eq_true] at h
    simp only [mergeRows, if_neg hne]
    rw [ih h.2]

theorem mergeRows_idem (l : List AlignedRow) :
    mergeRows (mergeRows l) = mergeRows l :=
  mergeRows_of_noAdj _ (noAdj_mergeRows l)

/-! ### Row shapes and values -/

theorem rowShape_sides (r : AlignedRow) (h : rowShape r = true) :
    (r.left.isSome || r.right.isSome) = true := by
  rcases r with ⟨_ | l, _ | rt⟩ <;>
    simp_all [rowShape, isMatchRow, isAdditionRow, isRemovalRow]

theorem combineRow_shape (x y : AlignedRow) (h : sameRowCat x y = true)
    (hx : rowShape x = true) : rowShape (combineRow x y) = true := by
  obtain ⟨h1, h2, h3⟩ := combineRow_cats x y h
  simp only [rowShape, h1, h2, h3] at hx ⊢
  exact hx

theorem mergeRows_all_shape (l : List AlignedRow)
    (h : l.all rowShape = true) : (mergeRows l).all rowShape = true := by
  induction l using mergeRows.induct with
  | case1 => simp [mergeRows]
  | case2 x => simp [mergeRows]; simp_all
  | case3 x y rest hc ih =>
    simp only [List.all_cons, Bool.and_eq_true] at h
    simp only [mergeRows, if_pos hc]
    exact ih (by
      simp only [List.all_cons, Bool.and_eq_true]
      exact ⟨combineRow_shape x y hc h.1, h.2.2⟩)
  | case4 x y rest hc ih =>
    simp only [List.all_cons, Bool.and_eq_true] at h
    simp only [mergeRows, if_neg hc, List.all_cons, Bool.and_eq_true]
    exact ⟨h.1, ih (by simp [h.2.1, h.2.2])⟩

theorem backtrackRows_all_shape (a b : List (List Char)) :
    ∀ fuel i j acc res, acc.all rowShape = true →
      backtrackRows a b fuel i j acc = some res →
      res.all rowShape = true := by
  intro fuel
  induction fuel with
  | zero =>
    intro i j acc res hacc hres
    simp only [backtrackRows] at hres
    split at hres
    · simp only [Option.some.injEq] at hres
      rw [← hres]
      exact hacc
    · exact absurd hres (by simp)
  | succ fuel ih =>
    intro i j acc res hacc hres
    by_cases h1 : i = 0 ∧ j = 0
    · simp only [backtrackRows] at hres
      rw [if_pos h1] at hres
      simp only [Option.some.injEq] at hres
      rw [← hres]
      exact hacc
    · rcases backtrack_branches a b i j h1 with h2 | ⟨h2, h3⟩ | ⟨h2, h3, h4⟩
      · rw [backtrackRows_eq_keep a b fuel i j acc h2] at hres
        refine ih _ _ _ res ?_ hres
        simp only [List.all_cons, Bool.and_eq_true]
        exact ⟨by simp [rowShape, isMatchRow], hacc⟩
      · rw [backtrackRows_eq_add a b fuel i j acc h2 h3] at hres
        refine ih _ _ _ res ?_ hres
        simp only [List.all_cons, Bool.and_eq_true]
        exact ⟨by simp [rowShape, isAdditionRow], hacc⟩
      · rw [backtrackRows_eq_del a b fuel i j acc h2 h3 h4.1] at hres
        refine ih _ _ _ res ?_ hres
        simp only [List.all_cons, Bool.and_eq_true]
        exact ⟨by simp [rowShape, isRemovalRow], hacc⟩

theorem getD_mem (l : List (List Char)) (k : Nat) (hk : k < l.length) :
    l.getD k [] ∈ l := by
  rw [List.getD_eq_getElem?_getD, List.getElem?_eq_getElem hk]
  exact List.getElem_mem hk

theorem combineRow_nonempty (x y : AlignedRow) (h : sameRowCat x y = true)
    (hx : rowValuesNonempty x = true) (hy : rowValuesNonempty y = true) :
    rowValuesNonempty (combineRow x y) = true := by
  rcases x with ⟨_ | xl, _ | xr⟩ <;> rcases y with ⟨_ | yl, _ | yr⟩ <;>
    simp_all [sameRowCat, isMatchRow, isAdditionRow, isRemovalRow,
      combineRow, appendVal, rowValuesNonempty]

theorem mergeRows_all_nonempty (l : List AlignedRow)
    (h : l.all rowValuesNonempty = true) :
    (mergeRows l).all rowValuesNonempty = true := by
  induction l using mergeRows.induct with
  | case1 => simp [mergeRows]
  | case2 x => simp [mergeRows]; simp_all
  | case3 x y rest hc ih =>
    simp only [List.all_cons, Bool.and_eq_true] at h
    simp only [mergeRows, if_pos hc]
    exact ih (by
      simp only [List.all_cons, Bool.and_eq_true]
      exact ⟨combineRow_nonempty x y hc h.1 h.2.1, h.2.2⟩)
  | case4 x y rest hc ih =>
    simp only [List.all_cons, Bool.and_eq_true] at h
    simp only [mergeRows, if_neg hc, List.all_cons, Bool.and_eq_true]
    exact ⟨h.1, ih (by simp [h.2.1, h.2.2])⟩

theorem backtrackRows_all_nonempty (a b : List (List Char))
    (ha : ∀ w ∈ a, w.length ≠ 0) (hb : ∀ w ∈ b, w.length ≠ 0) :
    ∀ fuel i j acc res, i ≤ a.length → j ≤ b.length →
      acc.all rowValuesNonempty = true →
      backtrackRows a b fuel i j acc = some res →
      res.all rowValuesNonempty = true := by
  intro fuel
  induction fuel with
  | zero =>
    intro i j acc res hi hj hacc hres
    simp only [backtrackRows] at hres
    split at hres
    · simp only [Option.some.injEq] at hres
      rw [← hres]
      exact hacc
    · exact absurd hres (by simp)
  | succ fuel ih =>
    intro i j acc res hi hj hacc hres
    by_cases h1 : i = 0 ∧ j = 0
    · simp only [backtrackRows] at hres
      rw [if_pos h1] at hres
      simp only [Option.some.injEq] at hres
      rw [← hres]
      exact hacc
    · rcases backtrack_branches a b i j h1 with h2 | ⟨h2, h3⟩ | ⟨h2, h3, h4⟩
      · rw [backtrackRows_eq_keep a b fuel i j acc h2] at hres
        refine ih _ _ _ res (by omega) (by omega) ?_ hres
        simp only [List.all_cons, Bool.and_eq_true]
        refine ⟨?_, hacc⟩
        have hma : a.getD (i - 1) [] ≠ [] := by
          have hl := ha _ (getD_mem a (i - 1) (by omega))
          intro hnil
          rw [hnil] at hl
          exact hl rfl
        have hmb : b.getD (j - 1) [] ≠ [] := by
          have hl := hb _ (getD_mem b (j - 1) (by omega))
          intro hnil
          rw [hnil] at hl
          exact hl rfl
        simp only [rowValuesNonempty, Option.all_some, Bool.and_eq_true,
          bne_iff_ne, ne_eq, List.length_eq_zero]
        exact ⟨hma, hmb⟩
      · rw [backtrackRows_eq_add a b fuel i j acc h2 h3] at hres
        refine ih _ _ _ res hi (by omega) ?_ hres
        simp only [List.all_cons, Bool.and_eq_true]
        refine ⟨?_, hacc⟩
        have hmb : b.getD (j - 1) [] ≠ [] := by
          have hl := hb _ (getD_mem b (j - 1) (by omega))
          intro hnil
          rw [hnil] at hl
          exact hl rfl
        simp only [rowValuesNonempty, Option.all_some, Option.all_none,
          Bool.true_and, Bool.and_eq_true, bne_iff_ne, ne_eq,
          List.length_eq_zero]
        exact hmb
      · rw [backtrackRows_eq_del a b fuel i j acc h2 h3 h4.1] at hres
        refine ih _ _ _ res (by omega) hj ?_ hres
        simp only [List.all_cons, Bool.and_eq_true]
        refine ⟨?_, hacc⟩
        have hma : a.getD (i - 1) [] ≠ [] := by
          have hl := ha _ (getD_mem a (i - 1) (by omega))
          intro hnil
          rw [hnil] at hl
          exact hl rfl
        simp only [rowValuesNonempty, Option.all_some, Option.all_none,
          Bool.and_true, Bool.and_eq_true, bne_iff_ne, ne_eq,
          List.length_eq_zero]
        exact hma

/-! ### Assembling the two operations -/

theorem computeDiff_eq (text1 text2 : List Char) :
    ∃ res, backtrack (splitWS text1) (splitWS text2)
        ((splitWS text1).length + (splitWS text2).length)
        (splitWS text1).length (splitWS text2).length [] = some res ∧
      computeDiff text1 text2 = mergeChanges res := by
  have h := backtrack_isSome (splitWS text1) (splitWS text2)
    ((splitWS text1).length + (splitWS text2).length)
    (splitWS text1).length (splitWS text2).length [] (le_refl _)
  obtain ⟨res, hres⟩ := Option.isSome_iff_exists.mp h
  exact ⟨res, hres, by simp [computeDiff, computeDiffOpt, hres]⟩

theorem computeAlignedDiff_eq (text1 text2 : List Char) :
    ∃ res, backtrackRows ((splitWS text1).filter fun w => w.length != 0)
        ((splitWS text2).filter fun w => w.length != 0)
        (((splitWS text1).filter fun w => w.length != 0).length +
          ((splitWS text2).filter fun w => w.length != 0).length)
        ((splitWS text1).filter fun w => w.length != 0).length
        ((splitWS text2).filter fun w => w.length != 0).length [] = some res ∧
      computeAlignedDiff text1 text2 = mergeRows res := by
  have h := backtrackRows_isSome
    ((splitWS text1).filter fun w => w.length != 0)
    ((splitWS text2).filter fun w => w.length != 0)
    (((splitWS text1).filter fun w => w.length != 0).length +
      ((splitWS text2).filter fun w => w.length != 0).length)
    ((splitWS text1).filter fun w => w.length != 0).length
    ((splitWS text2).filter fun w => w.length != 0).length [] (le_refl _)
  obtain ⟨res, hres⟩ := Option.isSome_iff_exists.mp h
  exact ⟨res, hres, by simp [computeAlignedDiff, computeAlignedDiffOpt, hres]⟩

/-! ### Claim theorems -/

/-- C1: for every pair of strings, concatenating the `value` fields of the
`computeDiff` records whose type is `unchanged` or `removed` (in output
order) yields exactly the first text, and concatenating the `value` fields
of the records whose type is `unchanged` or `added` yields exactly the
second text. -/
theorem computeDiff_reconstruction (text1 text2 : List Char) :
    textOf isSourceType (computeDiff text1 text2) = text1 ∧
    textOf isTargetType (computeDiff text1 text2) = text2 := by
  obtain ⟨res, hres, heq⟩ := computeDiff_eq text1 text2
  rw [heq]
  constructor
  · rw [textOf_mergeChanges]
    rw [backtrack_src (splitWS text1) (splitWS text2) _ _ _ _ res
      (le_refl _) hres]
    rw [List.take_length]
    simp [textOf, splitWS_flatten]
  · rw [textOf_mergeChanges]
    rw [backtrack_tgt (splitWS text1) (splitWS text2) _ _ _ _ res
      (le_refl _) hres]
    rw [List.take_length]
    simp [textOf, splitWS_flatten]

/-- C2: for every pair of strings, concatenating the non-null `left` values
of the rows of `computeAlignedDiff` (in row order) yields exactly the first
text, and concatenating the non-null `right` values yields exactly the
second text. -/
theorem computeAlignedDiff_reconstruction (text1 text2 : List Char) :
    leftText (computeAlignedDiff text1 text2) = text1 ∧
    rightText (computeAlignedDiff text1 text2) = text2 := by
  obtain ⟨res, hres, heq⟩ := computeAlignedDiff_eq text1 text2
  rw [heq]
  constructor
  · rw [leftText_mergeRows]
    rw [backtrackRows_left _ _ _ _ _ _ res (le_refl _) hres]
    rw [List.take_length]
    simp [leftText, splitWS_filter_flatten]
  · rw [rightText_mergeRows]
    rw [backtrackRows_right _ _ _ _ _ _ res (le_refl _) hres]
    rw [List.take_length]
    simp [rightText, splitWS_filter_flatten]

/-- C7: no two adjacent `computeDiff` records share a type, no two adjacent
`computeAlignedDiff` rows share a category, and each merge pass is
idempotent on its own output. -/
theorem diff_compaction (text1 text2 : List Char) :
    noAdjSameType (computeDiff text1 text2) = true ∧
    noAdjSameCat (computeAlignedDiff text1 text2) = true ∧
    mergeChanges (computeDiff text1 text2) = computeDiff text1 text2 ∧
    mergeRows (computeAlignedDiff text1 text2) = computeAlignedDiff text1 text2 := by
  obtain ⟨res, hres, heq⟩ := computeDiff_eq text1 text2
  obtain ⟨resR, hresR, heqR⟩ := computeAlignedDiff_eq text1 text2
  rw [heq, heqR]
  exact ⟨noAdj_mergeChanges res, noAdj_mergeRows resR,
    mergeChanges_idem res, mergeRows_idem resR⟩

/-- C8: every row of `computeAlignedDiff` has at least one side present and
is one of exactly three shapes: a match (both sides `unchanged`), an
insertion (`left` absent, `right` of type `added`), or a deletion (`left`
of type `removed`, `right` absent). -/
theorem alignedDiff_row_shapes (text1 text2 : List Char) :
    (computeAlignedDiff text1 text2).all
      (fun r => (r.left.isSome || r.right.isSome) && rowShape r) = true := by
  obtain ⟨resR, hresR, heqR⟩ := computeAlignedDiff_eq text1 text2
  have h1 : (mergeRows resR).all rowShape = true :=
    mergeRows_all_shape _
      (backtrackRows_all_shape _ _ _ _ _ [] resR rfl hresR)
  rw [heqR]
  rw [List.all_eq_true] at h1 ⊢
  intro r hr
  have hs := h1 r hr
  simp only [Bool.and_eq_true]
  exact ⟨rowShape_sides r hs, hs⟩

/-- C9: both operations terminate on every pair of finite strings: the
fuelled model of the backtracking while-loop, given exactly `n + m` fuel
(one unit per strict decrease of `i + j`), always returns a result, so
neither operation can loop forever or reach an error state. -/
theorem engine_total (text1 text2 : List Char) :
    (computeDiffOpt text1 text2).isSome = true ∧
    (computeAlignedDiffOpt text1 text2).isSome = true := by
  constructor
  · have h := backtrack_isSome (splitWS text1) (splitWS text2)
      ((splitWS text1).length + (splitWS text2).length)
      (splitWS text1).length (splitWS text2).length [] (le_refl _)
    obtain ⟨res, hres⟩ := Option.isSome_iff_exists.mp h
    simp [computeDiffOpt, hres]
  · have h := backtrackRows_isSome
      ((splitWS text1).filter fun w => w.length != 0)
      ((splitWS text2).filter fun w => w.length != 0)
      (((splitWS text1).filter fun w => w.length != 0).length +
        ((splitWS text2).filter fun w => w.length != 0).length)
      ((splitWS text1).filter fun w => w.length != 0).length
      ((splitWS text2).filter fun w => w.length != 0).length [] (le_refl _)
    obtain ⟨res, hres⟩ := Option.isSome_iff_exists.mp h
    simp [computeAlignedDiffOpt, hres]

/-- C10: every present side of every `computeAlignedDiff` row carries a
nonempty value (the row path filters out zero-length tokens before
alignment), and `computeAlignedDiff` of two empty strings is the empty
sequence. -/
theorem alignedDiff_values_nonempty (text1 text2 : List Char) :
    (computeAlignedDiff text1 text2).all rowValuesNonempty = true ∧
    computeAlignedDiff [] [] = [] := by
  refine ⟨?_, by simp +decide [computeAlignedDiff, computeAlignedDiffOpt,
    splitWS, backtrackRows, mergeRows]⟩
  obtain ⟨resR, hresR, heqR⟩ := computeAlignedDiff_eq text1 text2
  rw [heqR]
  refine mergeRows_all_nonempty _ ?_
  refine backtrackRows_all_nonempty _ _ ?_ ?_ _ _ _ [] resR
    (le_refl _) (le_refl _) rfl hresR
  · intro w hw
    have := (List.mem_filter.mp hw).2
    simpa using this
  · intro w hw
    have := (List.mem_filter.mp hw).2
    simpa using this

/-- C3 counterexample: `computeDiff("", "")` is not the empty sequence.
The JS tokenizer `"".split(/(\s+)/)` yields `[""]`, the two empty tokens
match, and the result is one record `{unchanged, ""}`. -/
theorem computeDiff_empty_not_nil : computeDiff [] [] ≠ [] := by
  simp +decide [computeDiff, computeDiffOpt, splitWS, backtrack, dp, dpRow,
    mergeChanges]

/-- C3 amended: on empty inputs `computeDiff` keeps the empty token produced
by the unfiltered tokenizer: `computeDiff("", "")` is `[{unchanged, ""}]`,
`computeDiff("", "abc")` is `[{removed, ""}, {added, "abc"}]`, and
`computeDiff("abc", "")` is `[{removed, "abc"}, {added, ""}]`. -/
theorem computeDiff_empty_behavior :
    computeDiff [] [] = [⟨.unchanged, []⟩] ∧
    computeDiff [] ['a', 'b', 'c'] =
      [⟨.removed, []⟩, ⟨.added, ['a', 'b', 'c']⟩] ∧
    computeDiff ['a', 'b', 'c'] [] =
      [⟨.removed, ['a', 'b', 'c']⟩, ⟨.added, []⟩] := by
  refine ⟨?_, ?_, ?_⟩ <;>
    simp +decide [computeDiff, computeDiffOpt, splitWS, backtrack, dp, dpRow,
      mergeChanges, jsWhitespace]

/-- C4: in both backtracking loops, at a step where `i > 0`, `j > 0` and the
current tokens differ, the token `b[j-1]` is classified as an insertion
exactly when `dp[i][j-1] >= dp[i-1][j]`, and otherwise `a[i-1]` is
classified as a deletion; in particular, on a tie insertion is chosen. -/
theorem backtrack_tiebreak (a b : List (List Char)) (fuel i j : Nat)
    (accF : List DiffChange) (accR : List AlignedRow)
    (hi : 0 < i) (hj : 0 < j)
    (hne : a.getD (i - 1) [] ≠ b.getD (j - 1) []) :
    (backtrack a b (fuel + 1) i j accF =
      if dp a b (i - 1) j ≤ dp a b i (j - 1) then
        backtrack a b fuel i (j - 1) (⟨.added, b.getD (j - 1) []⟩ :: accF)
      else
        backtrack a b fuel (i - 1) j
          (⟨.removed, a.getD (i - 1) []⟩ :: accF)) ∧
    (backtrackRows a b (fuel + 1) i j accR =
      if dp a b (i - 1) j ≤ dp a b i (j - 1) then
        backtrackRows a b fuel i (j - 1)
          (⟨none, some ⟨.added, b.getD (j - 1) []⟩⟩ :: accR)
      else
        backtrackRows a b fuel (i - 1) j
          (⟨some ⟨.removed, a.getD (i - 1) []⟩, none⟩ :: accR)) ∧
    (dp a b i (j - 1) = dp a b (i - 1) j →
      backtrack a b (fuel + 1) i j accF =
        backtrack a b fuel i (j - 1) (⟨.added, b.getD (j - 1) []⟩ :: accF)) := by
  have h2 : ¬(0 < i ∧ 0 < j ∧ a.getD (i - 1) [] = b.getD (j - 1) []) := by
    rintro ⟨-, -, hab⟩
    exact hne hab
  by_cases hge : dp a b (i - 1) j ≤ dp a b i (j - 1)
  · have h3 : 0 < j ∧ (i = 0 ∨ dp a b (i - 1) j ≤ dp a b i (j - 1)) :=
      ⟨hj, Or.inr hge⟩
    refine ⟨?_, ?_, ?_⟩
    · rw [if_pos hge]
      exact backtrack_eq_add a b fuel i j accF h2 h3
    · rw [if_pos hge]
      exact backtrackRows_eq_add a b fuel i j accR h2 h3
    · intro _
      exact backtrack_eq_add a b fuel i j accF h2 h3
  · have hlt : dp a b i (j - 1) < dp a b (i - 1) j := by omega
    have h3 : ¬(0 < j ∧ (i = 0 ∨ dp a b (i - 1) j ≤ dp a b i (j - 1))) := by
      rintro ⟨-, hor⟩
      rcases hor with h0 | hle
      · omega
      · omega
    refine ⟨?_, ?_, ?_⟩
    · rw [if_neg hge]
      exact backtrack_eq_del a b fuel i j accF h2 h3 ⟨hi, Or.inr hlt⟩
    · rw [if_neg hge]
      exact backtrackRows_eq_del a b fuel i j accR h2 h3 hi
    · intro heq
      omega

/-- Witness for C4: the tie at `i = 3`, `j = 3` of the scenario
`"A B"` vs `"A C"` (tokens `["A", " ", "B"]` vs `["A", " ", "C"]`), where
the hypotheses hold and the step is the insertion branch. -/
theorem backtrack_tiebreak_witness :
    0 < 3 ∧ 0 < 3 ∧
    ([['A'], [' '], ['B']] : List (List Char)).getD (3 - 1) [] ≠
      ([['A'], [' '], ['C']] : List (List Char)).getD (3 - 1) [] ∧
    (backtrack [['A'], [' '], ['B']] [['A'], [' '], ['C']] (5 + 1) 3 3 [] =
      if dp [['A'], [' '], ['B']] [['A'], [' '], ['C']] (3 - 1) 3 ≤
          dp [['A'], [' '], ['B']] [['A'], [' '], ['C']] 3 (3 - 1) then
        backtrack [['A'], [' '], ['B']] [['A'], [' '], ['C']] 5 3 (3 - 1)
          (⟨.added,
            ([['A'], [' '], ['C']] : List (List Char)).getD (3 - 1) []⟩ :: [])
      else
        backtrack [['A'], [' '], ['B']] [['A'], [' '], ['C']] 5 (3 - 1) 3
          (⟨.removed,
            ([['A'], [' '], ['B']] : List (List Char)).getD (3 - 1) []⟩ :: [])) :=
  ⟨by decide, by decide, by decide,
    (backtrack_tiebreak [['A'], [' '], ['B']] [['A'], [' '], ['C']] 5 3 3 [] []
      (by decide) (by decide) (by decide)).1⟩

/-- C5: the concrete scenario `"A B"` vs `"A C"`: the flat result is
`[{unchanged, "A "}, {removed, "B"}, {added, "C"}]` and the aligned result
is a match row `"A "`/`"A "`, then a deletion row `"B"`, then an insertion
row `"C"`. -/
theorem concrete_scenario :
    computeDiff ['A', ' ', 'B'] ['A', ' ', 'C'] =
      [⟨.unchanged, ['A', ' ']⟩, ⟨.removed, ['B']⟩, ⟨.added, ['C']⟩] ∧
    computeAlignedDiff ['A', ' ', 'B'] ['A', ' ', 'C'] =
      [⟨some ⟨.unchanged, ['A', ' ']⟩, some ⟨.unchanged, ['A', ' ']⟩⟩,
       ⟨some ⟨.removed, ['B']⟩, none⟩,
       ⟨none, some ⟨.added, ['C']⟩⟩] := by
  constructor
  · simp +decide [computeDiff, computeDiffOpt, splitWS, backtrack, dp, dpRow,
      mergeChanges, jsWhitespace]
  · simp +decide [computeAlignedDiff, computeAlignedDiffOpt, splitWS,
      backtrackRows, dp, dpRow, mergeRows, jsWhitespace, sameRowCat,
      isMatchRow, isAdditionRow, isRemovalRow, combineRow, appendVal]

/-- C6 counterexample: the unfiltered tokenizer used by `computeDiff` emits
an empty token on the empty string (JS `"".split(/(\s+)/)` is `[""]`), so
the claim that no token is the empty string fails. -/
theorem splitWS_empty_token : ([] : List Char) ∈ splitWS ([] : List Char) := by
  simp [splitWS]

/-- C6 amended: for every string, both token sequences concatenate back to
the string exactly and every token is entirely whitespace or entirely
non-whitespace; the filtered (row-path) token sequence contains no empty
token, while the unfiltered flat-path sequence may. -/
theorem tokenizer_contract (s : List Char) :
    (splitWS s).flatten = s ∧
    ((splitWS s).filter fun w => w.length != 0).flatten = s ∧
    (splitWS s).all uniformClass = true ∧
    ((splitWS s).filter fun w => w.length != 0).all
      (fun w => w.length != 0) = true := by
  refine ⟨splitWS_flatten s, splitWS_filter_flatten s, splitWS_uniform s, ?_⟩
  rw [List.all_eq_true]
  intro w hw
  exact (List.mem_filter.mp hw).2
